import Mathlib

/-
Verification of the reference-audio/text preprocessing core of the runpod_tts
repository (docker/preprocess/preprocess_handler.py), against its design
specification.

Python strings are modelled as lists of characters (Unicode code points).
Iterating a Python string yields its single characters, so the loop
`for seg in text` is modelled as a fold over the characters of `text`,
and for a one-character segment `seg`:
  `len(seg.encode("utf-8")) == len(seg)`   is  `seg.utf8Size = 1`,
  `len(seg.encode("utf-8")) == 3*len(seg)` is  `seg.utf8Size = 3`.
Machine integers are modelled as Nat/Int (all values involved are tiny),
and the float32 tensor arithmetic of the diffusion schedule is modelled
over the exact reals.
-/

namespace RunpodTTS

/-- Python `str` values that flow through the tokenizer, as lists of characters. -/
abbrev Str := List Char

/-- The ASCII single-quote character (code point 39). -/
def squote : Char := Char.ofNat 39

/-- Python lexicographic string comparison `a <= b`, comparing code points
elementwise.  The source's `is_japanese` applies `<=` to whole strings
(`char_list[-1]` is a string, not a character), so the comparison must be
modelled on strings. -/
def pyStrLe : Str → Str → Bool
  | [], _ => true
  | _ :: _, [] => false
  | a :: as, b :: bs => if a = b then pyStrLe as bs else decide (a.val < b.val)

/-- Python substring test `p in s`. -/
def isSubstrOf (p s : Str) : Bool :=
  (List.range (s.length + 1)).any fun i => p.isPrefixOf (s.drop i)

/-- Scanning core of Python `str.replace`: at skip `0` the scanner tries to
match `pat` at the current position, emits `rep` and skips the matched
characters on success, and otherwise emits one character and moves on.
A positive skip consumes characters already covered by a match. -/
def pyReplaceAux (pat rep : Str) : Str → Nat → Str
  | [], _ => []
  | _ :: rest, Nat.succ k => pyReplaceAux pat rep rest k
  | c :: rest, 0 =>
    if pat.isPrefixOf (c :: rest) then
      rep ++ pyReplaceAux pat rep rest (pat.length - 1)
    else
      c :: pyReplaceAux pat rep rest 0

/-- Python `s.replace(pat, rep)` for a non-empty pattern (every pattern used
by the source is non-empty; the empty-pattern case never arises). -/
def pyReplace (s pat rep : Str) : Str :=
  if pat.isEmpty then s else pyReplaceAux pat rep s 0

/-- Tokenizing the source's line
`return text.replace('"', '"').replace('"', '"').replace(''', "'").replace(''', "'").replace(';', ',')`
the two `'''` sequences pair up into one triple-quoted string literal, so the
line actually performs four replacements: double quote by itself (twice), the
literal fifteen-character text between the triple quotes by a single quote,
and semicolon by comma.  This is that fifteen-character pattern. -/
def tripleQuotedPat : Str :=
  [',', ' ', '"', squote, '"', ')', '.', 'r', 'e', 'p', 'l', 'a', 'c', 'e', '(']

/-- The `replace_quotes` helper of `convert_char_to_pinyin`, as the line
actually tokenizes (see `tripleQuotedPat`). -/
def replace_quotes (s : Str) : Str :=
  pyReplace (pyReplace (pyReplace (pyReplace s ['"'] ['"']) ['"'] ['"'])
    tripleQuotedPat [squote]) [';'] [',']

/-- The `is_japanese` helper: three half-open Unicode ranges (hiragana,
katakana, half-width katakana), tested with Python string comparison against
one-character bound strings. -/
def is_japanese (s : Str) : Bool :=
  (pyStrLe ['぀'] s && pyStrLe s ['ゟ']) ||
  (pyStrLe ['゠'] s && pyStrLe s ['ヿ']) ||
  (pyStrLe ['ｦ'] s && pyStrLe s ['ﾟ'])

/-- The thirteen-character CJK punctuation set of `convert_char_to_pinyin`. -/
def cjkPunct : Str :=
  ['。', '，', '、', '；', '：', '？', '！', '《', '》', '【', '】', '—', '…']

/-- Body of the inner loop `for p in seg_pinyin` of the pure-Chinese branch:
a space is inserted before `p` unless `p` is (a substring of) the punctuation
set, the space being suppressed after a Japanese last token. -/
def pinyinAppend (char_list : List Str) (p : Str) : List Str :=
  if ¬ isSubstrOf p cjkPunct then
    (if char_list = [] ∨ ¬ is_japanese (char_list.getLastD []) then
      char_list ++ [[' ']]
    else char_list) ++ [p]
  else
    char_list ++ [p]

/-- Body of the loop `for seg in text` of `convert_char_to_pinyin` for a single
character `c` (iterating a Python string yields characters), given the
transliteration function `pinyin` (the external `lazy_pinyin` capability,
always called on a one-character string here). -/
def convertStep (pinyin : Char → List Str) (polyphone : Bool)
    (char_list : List Str) (c : Char) : List Str :=
  let segByteLen := c.utf8Size
  if segByteLen = 1 then
    (if char_list ≠ [] ∧ segByteLen > 1 ∧
        ¬ isSubstrOf (char_list.getLastD []) [' ', ':', squote, '"'] then
      char_list ++ [[' ']]
    else char_list) ++ [[c]]
  else if polyphone = true ∧ segByteLen = 3 then
    (pinyin c).foldl pinyinAppend char_list
  else
    if c.toNat < 256 then char_list ++ [[c]]
    else if is_japanese [c] then char_list ++ [[c]]
    else if ¬ isSubstrOf [c] cjkPunct then char_list ++ pinyin c
    else char_list ++ [[c]]

/-- Processing of one text of the input list of `convert_char_to_pinyin`:
quote/semicolon normalization followed by the per-character loop. -/
def processText (pinyin : Char → List Str) (polyphone : Bool) (text : Str) :
    List Str :=
  (replace_quotes text).foldl (convertStep pinyin polyphone) []

/-- The `convert_char_to_pinyin` function, parameterized by the external
transliteration capability. -/
def convert_char_to_pinyin (pinyin : Char → List Str) (polyphone : Bool)
    (text_list : List Str) : List (List Str) :=
  text_list.map (processText pinyin polyphone)

/-- Python `vocab_char_map.get(c, d)`: the vocabulary table is an association
list from token to integer id. -/
def dictGet (vocab_char_map : List (Str × Int)) (c : Str) (d : Int) : Int :=
  (vocab_char_map.lookup c).getD d

/-- The `list_str_to_idx` function: each token is looked up with default id 0,
and `pad_sequence(..., batch_first=True)` right-pads every row with the
padding value up to the longest row of the batch. -/
def list_str_to_idx (text : List (List Str)) (vocab_char_map : List (Str × Int))
    (padding_value : Int) : List (List Int) :=
  let list_idx := text.map fun t => t.map fun c => dictGet vocab_char_map c 0
  let maxLen := (list_idx.map List.length).foldr max 0
  list_idx.map fun r => r ++ List.replicate (maxLen - r.length) padding_value

/-- UTF-8 byte length of a string, `len(s.encode("utf-8"))`. -/
def utf8Len (s : Str) : Nat := (s.map Char.utf8Size).sum

/-- Scanning core of `re.findall` with a literal (metacharacter-free) pattern:
counts the non-overlapping matches, resuming after each match.  A positive
skip consumes characters already covered by a match. -/
def findallAux (pat : Str) : Str → Nat → Nat
  | [], _ => 0
  | _ :: rest, Nat.succ k => findallAux pat rest k
  | c :: rest, 0 =>
    if pat.isPrefixOf (c :: rest) then
      1 + findallAux pat rest (pat.length - 1)
    else
      findallAux pat rest 0

/-- Number of matches `len(re.findall(pat, s))` for a non-empty literal
pattern. -/
def findallCount (pat s : Str) : Nat :=
  if pat.isEmpty then 0 else findallAux pat s 0

/-- The source's `zh_pause_punc` regex pattern: the literal seven-character
string, with no character-class brackets, so `re.findall` matches the whole
seven-character sequence, not its individual characters. -/
def zhPausePunc : Str := ['。', '，', '、', '；', '：', '？', '！']

/-- The `ref_text_len` computation of `preprocess_text_and_audio` (lines
147-151): in Chinese mode the UTF-8 byte length plus three per `re.findall`
match of `zh_pause_punc`, otherwise the byte length alone. -/
def ref_text_len (lang : Str) (ref_text : Str) : Nat :=
  if lang = ['z', 'h'] then
    utf8Len ref_text + 3 * findallCount zhPausePunc ref_text
  else
    utf8Len ref_text

/-- The fixed `HOP_LENGTH` constant. -/
def HOP_LENGTH : Nat := 256

/-- The `ref_audio_len` computation (line 154): `audio.shape[-1]` is the
sample count of the loaded audio, floor-divided by the hop length, plus one. -/
def ref_audio_len (sampleCount : Nat) : Nat := sampleCount / HOP_LENGTH + 1

/-- The duration-estimator portion of `preprocess_text_and_audio` (lines
146-155): both the text length and the audio-frame length are computed, but
the emitted `max_duration` is the audio-frame length alone. -/
def durationEstimator (lang ref_text : Str) (sampleCount : Nat) : Nat :=
  let _text_len := ref_text_len lang ref_text
  ref_audio_len sampleCount

/- Diffusion schedule generator (lines 174-185), over the exact reals. -/

/-- The uniform grid `torch.linspace(0, 1, 32 + 1)`: point `i` is `i / 32`. -/
noncomputable def tGrid (i : Nat) : ℝ := i / 32

/-- The warped schedule `time_step = t + (-1.0) * (torch.cos(torch.pi * 0.5 * t) - 1 + t)`. -/
noncomputable def time_step (i : Nat) : ℝ :=
  tGrid i + (-1) * (Real.cos (Real.pi * 0.5 * tGrid i) - 1 + tGrid i)

/-- The consecutive differences `delta_t = torch.diff(time_step)`. -/
noncomputable def delta_t (i : Nat) : ℝ := time_step (i + 1) - time_step i

/-- The frequency factor vector: `1000.0 * torch.exp(torch.arange(half_dim) * -emb_factor)`
with `half_dim = 256 // 2` and `emb_factor = math.log(10000) / (half_dim - 1)`. -/
noncomputable def emb_factor (k : Nat) : ℝ :=
  1000.0 * Real.exp (k * -(Real.log 10000 / (128 - 1)))

/-- The per-step embedding argument `emb = time_step[i] * emb_factor`. -/
noncomputable def embArg (i : Nat) : List ℝ :=
  (List.range 128).map fun k => time_step i * emb_factor k

/-- Row `i` of `time_expand`: `torch.cat((emb.sin(), emb.cos()), dim=-1)`. -/
noncomputable def embRow (i : Nat) : List ℝ :=
  (embArg i).map Real.sin ++ (embArg i).map Real.cos

/-- The `time_expand` tensor of shape `(1, 32, 256)`: the single batch entry
holds rows `0 ≤ i < 32` (the final warped point `time_step 32` is not
embedded). -/
noncomputable def time_expand : List (List (List ℝ)) :=
  [(List.range 32).map embRow]

/- Definitions following the specification's words, for comparison with the
source-derived definitions above. -/

/-- Number of individual pause-punctuation characters in a string.  This
follows the specification's words for the Chinese text-length rule ("count of
Chinese pause punctuation marks", read as individual characters of the fixed
set), to be compared with the source's whole-string `re.findall` match. -/
def claimedPauseCount (s : Str) : Nat :=
  (s.filter fun c => c ∈ zhPausePunc).length

/-- Number of positions at which `pat` occurs as a substring of `s` (the
declarative occurrence count used by the amended Chinese text-length claim). -/
def occCount (pat s : Str) : Nat :=
  ((List.range s.length).filter fun i => pat.isPrefixOf (s.drop i)).length

/-- Modelled from the spec: the external transliteration adapter (the
`lazy_pinyin` capability of section 4.2, which is not part of this
repository) returns one trailing-tone-digit romanized syllable per Chinese
character and passes punctuation through literally.  This stub realizes that
contract at the concrete characters used by witnesses and counterexamples. -/
def pinyinModel : Char → List Str := fun c =>
  if c = '你' then [['n', 'i', '3']]
  else if c = '好' then [['h', 'a', 'o', '3']]
  else [[c]]

/-- A tonal romanized syllable: non-empty, ASCII, with a trailing tone
digit. -/
def isTonal (p : Str) : Bool :=
  !p.isEmpty && p.all (fun ch => ch.toNat < 128) && (p.getLastD ' ').isDigit

/-- A literal one-character member of the CJK punctuation set. -/
def isPunctTok (p : Str) : Bool :=
  match p with
  | [d] => cjkPunct.contains d
  | _ => false

/- Basic facts about the Python-string helpers. -/

theorem append_drop_of_isPrefixOf (p : Str) :
    ∀ (s : Str), p.isPrefixOf s = true → s = p ++ s.drop p.length := by
  induction p with
  | nil => intro s _; simp
  | cons a as ih =>
    intro s h
    cases s with
    | nil => simp [List.isPrefixOf] at h
    | cons b bs =>
      simp only [List.isPrefixOf, Bool.and_eq_true, beq_iff_eq] at h
      obtain ⟨rfl, h2⟩ := h
      simp only [List.cons_append, List.length_cons, List.drop_succ_cons]
      exact congrArg (List.cons a) (ih bs h2)

theorem isPrefixOf_append_self : ∀ (p t : Str), p.isPrefixOf (p ++ t) = true := by
  intro p
  induction p with
  | nil => intro t; simp [List.isPrefixOf]
  | cons a as ih => intro t; simp [List.isPrefixOf, ih t]

theorem pyReplaceAux_skip (pat rep : Str) :
    ∀ (l : Str) (k : Nat), pyReplaceAux pat rep l k = pyReplaceAux pat rep (l.drop k) 0 := by
  intro l
  induction l with
  | nil => intro k; cases k <;> simp [pyReplaceAux]
  | cons c rest ih =>
    intro k
    cases k with
    | zero => simp
    | succ k => simpa [pyReplaceAux, List.drop_succ_cons] using ih k

theorem pyReplaceAux_self (pat : Str) (hpat : pat ≠ []) :
    ∀ (n : Nat) (s : Str), s.length ≤ n → pyReplaceAux pat pat s 0 = s := by
  intro n
  induction n with
  | zero =>
    intro s hs
    have : s = [] := List.length_eq_zero.mp (Nat.le_zero.mp hs)
    subst this; simp [pyReplaceAux]
  | succ n ih =>
    intro s hs
    cases s with
    | nil => simp [pyReplaceAux]
    | cons c rest =>
      by_cases h : pat.isPrefixOf (c :: rest) = true
      · simp only [pyReplaceAux, if_pos h]
        rw [pyReplaceAux_skip]
        have hlen : rest.drop (pat.length - 1) = (c :: rest).drop pat.length := by
          cases pat with
          | nil => exact absurd rfl hpat
          | cons a as => simp
        rw [hlen, ih ((c :: rest).drop pat.length) ?hle]
        case hle =>
          have h1 : 1 ≤ pat.length := by
            cases pat with
            | nil => exact absurd rfl hpat
            | cons a as => simp
          simp only [List.length_drop, List.length_cons] at *
          omega
        exact (append_drop_of_isPrefixOf pat (c :: rest) h).symm
      · simp only [pyReplaceAux, if_neg h]
        rw [ih rest (by simpa using Nat.le_of_succ_le_succ hs)]

theorem pyReplace_self (s pat : Str) : pyReplace s pat pat = s := by
  by_cases h : pat.isEmpty = true
  · simp [pyReplace, h]
  · rw [pyReplace, if_neg h]
    exact pyReplaceAux_self pat (by simpa [List.isEmpty_iff] using h) s.length s le_rfl

theorem pyReplaceAux_no_head (a : Char) (pt rep : Str) :
    ∀ (s : Str), (∀ c ∈ s, c ≠ a) → pyReplaceAux (a :: pt) rep s 0 = s := by
  intro s
  induction s with
  | nil => intro _; simp [pyReplaceAux]
  | cons c rest ih =>
    intro h
    have hc : ¬ (a :: pt).isPrefixOf (c :: rest) = true := by
      simp only [List.isPrefixOf, Bool.and_eq_true, beq_iff_eq]
      intro hh
      exact (h c (List.mem_cons_self c rest)) hh.1.symm
    simp only [pyReplaceAux, if_neg hc]
    rw [ih fun d hd => h d (List.mem_cons_of_mem c hd)]

theorem pyReplace_no_head (s : Str) (a : Char) (pt rep : Str)
    (h : ∀ c ∈ s, c ≠ a) : pyReplace s (a :: pt) rep = s := by
  rw [pyReplace, if_neg (by simp)]
  exact pyReplaceAux_no_head a pt rep s h

theorem pyReplaceAux_single (a b : Char) :
    ∀ (s : Str), pyReplaceAux [a] [b] s 0 = s.map fun c => if c = a then b else c := by
  intro s
  induction s with
  | nil => simp [pyReplaceAux]
  | cons c rest ih =>
    by_cases h : c = a
    · subst h
      simp [pyReplaceAux, List.isPrefixOf, ih]
    · have hpre : ¬ ([a] : Str).isPrefixOf (c :: rest) = true := by
        simp only [List.isPrefixOf, Bool.and_eq_true, beq_iff_eq]
        intro hh
        exact h hh.1.symm
      simp only [pyReplaceAux, if_neg hpre, List.map_cons, if_neg h]
      rw [ih]

theorem pyReplace_single (s : Str) (a b : Char) :
    pyReplace s [a] [b] = s.map fun c => if c = a then b else c := by
  rw [pyReplace, if_neg (by simp)]
  exact pyReplaceAux_single a b s

theorem pyReplaceAux_no_occ (pat rep : Str) :
    ∀ (s : Str), (∀ i, ¬ pat.isPrefixOf (s.drop i) = true) → pyReplaceAux pat rep s 0 = s := by
  intro s
  induction s with
  | nil => intro _; simp [pyReplaceAux]
  | cons c rest ih =>
    intro h
    have h0 : ¬ pat.isPrefixOf (c :: rest) = true := by simpa using h 0
    simp only [pyReplaceAux, if_neg h0]
    rw [ih fun i => by simpa [List.drop_succ_cons] using h (i + 1)]

theorem isSubstrOf_eq_true_iff (p s : Str) :
    isSubstrOf p s = true ↔ ∃ i, i < s.length + 1 ∧ p.isPrefixOf (s.drop i) = true := by
  simp [isSubstrOf, List.any_eq_true, List.mem_range]

theorem not_isPrefixOf_of_isSubstrOf_eq_false (p s : Str) (hp : p ≠ [])
    (h : isSubstrOf p s = false) : ∀ i, ¬ p.isPrefixOf (s.drop i) = true := by
  intro i hpre
  by_cases hi : i < s.length + 1
  · have : isSubstrOf p s = true := (isSubstrOf_eq_true_iff p s).mpr ⟨i, hi, hpre⟩
    rw [h] at this
    exact Bool.false_ne_true this
  · rw [List.drop_eq_nil_of_le (by omega)] at hpre
    cases pat : p with
    | nil => exact hp pat
    | cons a as => rw [pat] at hpre; simp [List.isPrefixOf] at hpre

theorem isSubstrOf_singleton_iff (d : Char) (s : Str) :
    isSubstrOf [d] s = true ↔ d ∈ s := by
  constructor
  · intro h
    obtain ⟨i, _, hpre⟩ := (isSubstrOf_eq_true_iff [d] s).mp h
    have := append_drop_of_isPrefixOf [d] (s.drop i) hpre
    have hd : d ∈ s.drop i := by rw [this]; exact List.mem_cons_self d _
    exact List.mem_of_mem_drop hd
  · intro h
    induction s with
    | nil => simp at h
    | cons c rest ih =>
      rcases List.mem_cons.mp h with h1 | h2
      · subst h1
        exact (isSubstrOf_eq_true_iff [d] (d :: rest)).mpr
          ⟨0, by omega, by simp [List.isPrefixOf]⟩
      · obtain ⟨i, hi, hpre⟩ := (isSubstrOf_eq_true_iff [d] rest).mp (ih h2)
        exact (isSubstrOf_eq_true_iff [d] (c :: rest)).mpr
          ⟨i + 1, by simpa using hi, by simpa [List.drop_succ_cons] using hpre⟩

theorem isSubstrOf_cjkPunct_eq_false_of_ascii (p : Str) (hne : p ≠ [])
    (hac : p.all (fun ch => ch.toNat < 128) = true) :
    isSubstrOf p cjkPunct = false := by
  by_contra hcon
  have htrue : isSubstrOf p cjkPunct = true := by
    cases hb : isSubstrOf p cjkPunct with
    | false => exact absurd hb hcon
    | true => rfl
  obtain ⟨i, _, hpre⟩ := (isSubstrOf_eq_true_iff p cjkPunct).mp htrue
  cases hp : p with
  | nil => exact hne hp
  | cons a as =>
    rw [hp] at hpre
    have hdrop := append_drop_of_isPrefixOf (a :: as) (cjkPunct.drop i) hpre
    have hmem : a ∈ cjkPunct.drop i := by
      rw [hdrop]; exact List.mem_cons_self a _
    have hmem2 : a ∈ cjkPunct := List.mem_of_mem_drop hmem
    have hlt : a.toNat < 128 := by
      rw [hp] at hac
      simp only [List.all_cons, Bool.and_eq_true, decide_eq_true_eq] at hac
      exact hac.1
    have : ∀ c ∈ cjkPunct, ¬ c.toNat < 128 := by decide
    exact this a hmem2 hlt

/- Facts about the literal-pattern findall scan. -/

theorem findallAux_skip (pat : Str) :
    ∀ (l : Str) (k : Nat), findallAux pat l k = findallAux pat (l.drop k) 0 := by
  intro l
  induction l with
  | nil => intro k; cases k <;> simp [findallAux]
  | cons c rest ih =>
    intro k
    cases k with
    | zero => simp
    | succ k => simpa [findallAux, List.drop_succ_cons] using ih k

theorem occCount_cons (pat : Str) (c : Char) (rest : Str) :
    occCount pat (c :: rest) =
      (if pat.isPrefixOf (c :: rest) = true then 1 else 0) + occCount pat rest := by
  have hfilter : List.filter ((fun i => pat.isPrefixOf ((c :: rest).drop i)) ∘ Nat.succ)
      (List.range rest.length) =
      List.filter (fun i => pat.isPrefixOf (rest.drop i)) (List.range rest.length) := by
    apply List.filter_congr
    intro i _
    simp [Function.comp]
  by_cases h : pat.isPrefixOf (c :: rest) = true
  · simp [occCount, List.range_succ_eq_map, List.filter_cons, h, List.filter_map,
      Nat.add_comm]
    rw [hfilter]
  · simp [occCount, List.range_succ_eq_map, List.filter_cons, h, List.filter_map]
    rw [hfilter]

theorem occCount_drop_of_no_match (pat : Str) :
    ∀ (k : Nat) (l : Str), (∀ i, i < k → ¬ pat.isPrefixOf (l.drop i) = true) →
      occCount pat l = occCount pat (l.drop k) := by
  intro k
  induction k with
  | zero => intro l _; simp
  | succ k ih =>
    intro l h
    cases l with
    | nil => simp
    | cons c rest =>
      rw [occCount_cons, if_neg (by simpa using h 0 (by omega))]
      simp only [List.drop_succ_cons, Nat.zero_add]
      exact ih rest fun i hi => by
        simpa [List.drop_succ_cons] using h (i + 1) (by omega)

theorem zhPause_head_of_isPrefixOf (q : Str) (hq : zhPausePunc.isPrefixOf q = true) :
    q.head? = some '。' := by
  rw [append_drop_of_isPrefixOf zhPausePunc q hq]
  simp [zhPausePunc]

theorem zhPause_no_overlap (s : Str) (hs : zhPausePunc.isPrefixOf s = true) :
    ∀ j, 0 < j → j < 7 → ¬ zhPausePunc.isPrefixOf (s.drop j) = true := by
  intro j hj0 hj7 hpre
  have h1 := zhPause_head_of_isPrefixOf (s.drop j) hpre
  rw [append_drop_of_isPrefixOf zhPausePunc s hs,
      List.drop_append_of_le_length (by simp [zhPausePunc]; omega)] at h1
  interval_cases j <;> simp [zhPausePunc] at h1

theorem findallAux_eq_occCount :
    ∀ (n : Nat) (s : Str), s.length ≤ n →
      findallAux zhPausePunc s 0 = occCount zhPausePunc s := by
  intro n
  induction n with
  | zero =>
    intro s hs
    have : s = [] := List.length_eq_zero.mp (Nat.le_zero.mp hs)
    subst this; simp [findallAux, occCount]
  | succ n ih =>
    intro s hs
    cases s with
    | nil => simp [findallAux, occCount]
    | cons c rest =>
      by_cases h : zhPausePunc.isPrefixOf (c :: rest) = true
      · simp only [findallAux, if_pos h]
        rw [findallAux_skip, show zhPausePunc.length - 1 = 6 from rfl]
        have hnm : ∀ i, i < 6 → ¬ zhPausePunc.isPrefixOf (rest.drop i) = true := by
          intro i hi
          have := zhPause_no_overlap (c :: rest) h (i + 1) (by omega) (by omega)
          simpa [List.drop_succ_cons] using this
        rw [occCount_cons, if_pos h, occCount_drop_of_no_match zhPausePunc 6 rest hnm]
        rw [ih (rest.drop 6) (by simp only [List.length_drop]; simp at hs; omega)]
      · simp only [findallAux, if_neg h]
        rw [occCount_cons, if_neg h, Nat.zero_add]
        exact ih rest (by simpa using Nat.le_of_succ_le_succ hs)

/-- C3 (amended): in Chinese mode the text length equals the UTF-8 byte length
of the transcript plus 3 times the number of positions at which the whole
seven-character pause string 。，、；：？！ occurs as a substring (the regex is
a literal string, not a character class, so individual punctuation characters
are not counted); in non-Chinese mode it is the UTF-8 byte length alone. -/
theorem zh_text_len_amended (lang ref_text : Str) :
    (lang = ['z', 'h'] →
      ref_text_len lang ref_text =
        utf8Len ref_text + 3 * occCount zhPausePunc ref_text) ∧
    (lang ≠ ['z', 'h'] → ref_text_len lang ref_text = utf8Len ref_text) := by
  constructor
  · intro h
    rw [ref_text_len, if_pos h, findallCount, if_neg (by simp [zhPausePunc]),
        findallAux_eq_occCount ref_text.length ref_text le_rfl]
  · intro h
    rw [ref_text_len, if_neg h]

/-- Witness for the amended C3 at a concrete transcript holding one full
occurrence of the pause string followed by a lone comma. -/
theorem zh_text_len_amended_witness :
    ref_text_len ['z', 'h'] (zhPausePunc ++ ['，']) =
      utf8Len (zhPausePunc ++ ['，']) + 3 * occCount zhPausePunc (zhPausePunc ++ ['，']) :=
  (zh_text_len_amended ['z', 'h'] (zhPausePunc ++ ['，'])).1 rfl

/-- C3 counterexample: a transcript consisting of the single pause character
， has UTF-8 byte length 3 and one individual pause mark, so the claim
predicts text length 6, but the code's `re.findall` with the literal
seven-character pattern finds no match and yields 3. -/
theorem zh_text_len_counterexample :
    ref_text_len ['z', 'h'] ['，'] ≠ utf8Len ['，'] + 3 * claimedPauseCount ['，'] := by
  decide

/-- C4: the emitted max duration is floor(sample_count / 256) + 1, it does not
depend on the transcript, and 24000 samples give 94. -/
theorem max_duration_from_audio :
    (∀ (lang ref_text : Str) (n : Nat), durationEstimator lang ref_text n = n / 256 + 1) ∧
    (∀ (lang t1 t2 : Str) (n : Nat),
      durationEstimator lang t1 n = durationEstimator lang t2 n) ∧
    (∀ (lang ref_text : Str), durationEstimator lang ref_text 24000 = 94) :=
  ⟨fun _ _ _ => rfl, fun _ _ _ _ => rfl, fun _ _ => rfl⟩

/- Facts about the diffusion schedule. -/

theorem time_step_eq (i : Nat) :
    time_step i = 1 - Real.cos (Real.pi / 2 * ((i : ℝ) / 32)) := by
  unfold time_step tGrid
  have harg : Real.pi * 0.5 * ((i : ℝ) / 32) = Real.pi / 2 * ((i : ℝ) / 32) := by ring
  rw [harg]
  ring

theorem time_step_zero : time_step 0 = 0 := by
  rw [time_step_eq]
  norm_num [Real.cos_zero]

theorem time_step_final : time_step 32 = 1 := by
  rw [time_step_eq]
  norm_num [Real.cos_pi_div_two]

theorem delta_t_sum : (∑ i ∈ Finset.range 32, delta_t i) = 1 := by
  simp only [delta_t]
  rw [Finset.sum_range_sub time_step 32, time_step_final, time_step_zero]
  ring

/-- C1: the warped schedule is 1 - cos(pi/2 * (i/32)) at every grid point,
its endpoints are 0 and 1 (a fortiori within tolerance 1e-6), and the 32
consecutive differences sum to 1 (within the same tolerance). -/
theorem time_schedule_warp :
    (∀ i : Fin 33, time_step i = 1 - Real.cos (Real.pi / 2 * (((i : ℕ) : ℝ) / 32))) ∧
    |time_step 0 - 0| ≤ 1e-6 ∧ |time_step 32 - 1| ≤ 1e-6 ∧
    |(∑ i ∈ Finset.range 32, delta_t i) - 1| ≤ 1e-6 := by
  refine ⟨fun i => time_step_eq i, ?_, ?_, ?_⟩
  · rw [time_step_zero]; norm_num
  · rw [time_step_final]; norm_num
  · rw [delta_t_sum]; norm_num

/-- C10: the warped schedule is monotonically nondecreasing, so every entry
of the delta-t array is nonnegative. -/
theorem delta_t_nonneg : ∀ i : Fin 32, 0 ≤ delta_t i := by
  intro i
  have hi : (i : ℕ) < 32 := i.2
  rw [delta_t, time_step_eq, time_step_eq]
  have h0 : (0 : ℝ) ≤ Real.pi / 2 * (((i : ℕ) : ℝ) / 32) := by positivity
  have hle : Real.pi / 2 * (((i : ℕ) : ℝ) / 32) ≤
      Real.pi / 2 * ((((i : ℕ) + 1 : ℕ) : ℝ) / 32) := by
    have hmono : (((i : ℕ) : ℝ) / 32) ≤ ((((i : ℕ) + 1 : ℕ) : ℝ) / 32) := by
      push_cast
      linarith
    exact mul_le_mul_of_nonneg_left hmono (by positivity)
  have hpi : Real.pi / 2 * ((((i : ℕ) + 1 : ℕ) : ℝ) / 32) ≤ Real.pi := by
    have hone : ((((i : ℕ) + 1 : ℕ) : ℝ) / 32) ≤ 1 := by
      rw [div_le_one (by norm_num)]
      push_cast
      have : ((i : ℕ) : ℝ) ≤ 31 := by exact_mod_cast Nat.lt_succ_iff.mp (by omega)
      linarith
    calc Real.pi / 2 * ((((i : ℕ) + 1 : ℕ) : ℝ) / 32)
        ≤ Real.pi / 2 * 1 := mul_le_mul_of_nonneg_left hone (by positivity)
      _ = Real.pi / 2 := mul_one _
      _ ≤ Real.pi := by linarith [Real.pi_pos]
  have hcos := Real.cos_le_cos_of_nonneg_of_le_pi h0 hpi hle
  linarith

/- Facts about the sinusoidal time embedding. -/

theorem emb_factor_eq (k : Nat) :
    emb_factor k = 1000 * Real.exp (-(((k : ℕ) : ℝ) * Real.log 10000) / 127) := by
  unfold emb_factor
  have harg : ((k : ℕ) : ℝ) * -(Real.log 10000 / (128 - 1)) =
      -(((k : ℕ) : ℝ) * Real.log 10000) / 127 := by ring
  rw [harg]
  norm_num

theorem time_expand_row (i : Nat) (hi : i < 32) :
    (time_expand.getD 0 []).getD i [] = embRow i := by
  show ((List.range 32).map embRow).getD i [] = embRow i
  rw [List.getD_eq_getElem _ _ (by simpa using hi)]
  simp

theorem embRow_length (i : Nat) : (embRow i).length = 256 := by
  simp [embRow, embArg]

theorem embRow_getD_sin (i k : Nat) (hk : k < 128) :
    (embRow i).getD k 0 = Real.sin (time_step i * emb_factor k) := by
  rw [embRow, List.getD_append _ _ _ _ (by simpa [embArg] using hk)]
  rw [List.getD_eq_getElem _ _ (by simpa [embArg] using hk)]
  simp [embArg]

theorem embRow_getD_cos (i k : Nat) (hk : k < 128) :
    (embRow i).getD (k + 128) 0 = Real.cos (time_step i * emb_factor k) := by
  rw [embRow, List.getD_append_right _ _ _ _ (by simp [embArg])]
  simp only [embArg, List.length_map, List.length_range, Nat.add_sub_cancel]
  rw [List.getD_eq_getElem _ _ (by simpa using hk)]
  simp

/-- C2: the time embedding has shape (1, 32, 256); row i holds the sines of
time_step i times the frequency vector in its first 128 entries and the
cosines of the same products in its last 128 entries, the frequency factor
being 1000 * exp(-k * ln(10000) / 127). -/
theorem time_embedding_rows :
    time_expand.length = 1 ∧
    (time_expand.getD 0 []).length = 32 ∧
    (∀ row ∈ time_expand.getD 0 [], row.length = 256) ∧
    (∀ i : Fin 32, ∀ k : Fin 128,
      ((time_expand.getD 0 []).getD (i : ℕ) []).getD (k : ℕ) 0 =
        Real.sin (time_step (i : ℕ) *
          (1000 * Real.exp (-(((k : ℕ) : ℝ) * Real.log 10000) / 127))) ∧
      ((time_expand.getD 0 []).getD (i : ℕ) []).getD ((k : ℕ) + 128) 0 =
        Real.cos (time_step (i : ℕ) *
          (1000 * Real.exp (-(((k : ℕ) : ℝ) * Real.log 10000) / 127)))) := by
  refine ⟨rfl, by simp [time_expand], ?_, ?_⟩
  · intro row hrow
    simp only [time_expand, List.getD_cons_zero] at hrow
    obtain ⟨j, _, rfl⟩ := List.mem_map.mp hrow
    exact embRow_length j
  · intro i k
    rw [time_expand_row (i : ℕ) i.2, embRow_getD_sin (i : ℕ) (k : ℕ) k.2,
        embRow_getD_cos (i : ℕ) (k : ℕ) k.2, emb_factor_eq]
    exact ⟨rfl, rfl⟩

/- Facts about the vocabulary indexer. -/

theorem dictGet_cases (vocab : List (Str × Int)) (c : Str) (d : Int) :
    (vocab.lookup c = none ∧ dictGet vocab c d = d) ∨
    (∃ v, vocab.lookup c = some v ∧ dictGet vocab c d = v) := by
  unfold dictGet
  cases h : vocab.lookup c with
  | none => exact Or.inl ⟨rfl, rfl⟩
  | some v => exact Or.inr ⟨v, rfl, rfl⟩

theorem exists_pair_of_lookup_eq_some {vocab : List (Str × Int)} {c : Str} {v : Int}
    (h : vocab.lookup c = some v) : ∃ p ∈ vocab, p.2 = v := by
  induction vocab with
  | nil => simp at h
  | cons hd tl ih =>
    obtain ⟨k, b⟩ := hd
    rw [List.lookup_cons] at h
    cases hk : c == k with
    | true =>
      rw [hk] at h
      exact ⟨(k, b), List.mem_cons_self _ _, by simpa using h⟩
    | false =>
      rw [hk] at h
      obtain ⟨p, hp, hv⟩ := ih h
      exact ⟨p, List.mem_cons_of_mem _ hp, hv⟩

theorem lsi_length (text : List (List Str)) (vocab : List (Str × Int)) (pv : Int) :
    (list_str_to_idx text vocab pv).length = text.length := by
  simp [list_str_to_idx]

theorem lsi_getD (text : List (List Str)) (vocab : List (Str × Int)) (pv : Int)
    (i : Nat) (hi : i < text.length) :
    (list_str_to_idx text vocab pv).getD i [] =
      (text.getD i []).map (fun c => dictGet vocab c 0) ++
        List.replicate
          ((((text.map fun t => t.map fun c => dictGet vocab c 0).map List.length).foldr max 0)
            - (text.getD i []).length) pv := by
  rw [List.getD_eq_getElem _ _ (by rw [lsi_length]; exact hi),
      List.getD_eq_getElem _ _ hi]
  simp only [list_str_to_idx, List.getElem_map, List.length_map]

/-- C6: vocabulary indexing is total; every non-padding entry of the index
tensor is the id the table holds for that token, or 0 when the token is
absent (the model function is total by construction, matching the
no-exception claim). -/
theorem vocab_indexing_total (text : List (List Str)) (vocab : List (Str × Int)) (pv : Int) :
    ∀ i, i < text.length → ∀ j, j < (text.getD i []).length →
      ((list_str_to_idx text vocab pv).getD i []).getD j 0 =
        dictGet vocab ((text.getD i []).getD j []) 0 ∧
      (vocab.lookup ((text.getD i []).getD j []) =
          some (dictGet vocab ((text.getD i []).getD j []) 0) ∨
        (vocab.lookup ((text.getD i []).getD j []) = none ∧
          dictGet vocab ((text.getD i []).getD j []) 0 = 0)) := by
  intro i hi j hj
  refine ⟨?_, ?_⟩
  · rw [lsi_getD text vocab pv i hi,
        List.getD_append _ _ _ _ (by simpa using hj),
        List.getD_eq_getElem _ _ (by simpa using hj),
        List.getD_eq_getElem _ _ hj]
    simp
  · rcases dictGet_cases vocab ((text.getD i []).getD j []) 0 with ⟨h1, h2⟩ | ⟨v, h1, h2⟩
    · exact Or.inr ⟨h1, h2⟩
    · exact Or.inl (by rw [h1, h2])

/-- Witness for C6 at a concrete batch and table: the id of a known token is
its table id, evaluated through the padded tensor. -/
theorem vocab_indexing_total_witness :
    ((list_str_to_idx [[['a'], ['z']]] [((['a'] : Str), 7)] (-1)).getD 0 []).getD 0 0 =
      dictGet [((['a'] : Str), 7)] (([[['a'], ['z']]].getD 0 []).getD 0 []) 0 :=
  (vocab_indexing_total [[['a'], ['z']]] [((['a'] : Str), 7)] (-1) 0 (by decide) 0
    (by decide)).1

theorem dictGet_ne_neg_one (vocab : List (Str × Int)) (hno : ∀ p ∈ vocab, p.2 ≠ -1)
    (c : Str) : dictGet vocab c 0 ≠ -1 := by
  rcases dictGet_cases vocab c 0 with ⟨_, h2⟩ | ⟨v, h1, h2⟩
  · rw [h2]; decide
  · rw [h2]
    obtain ⟨p, hp, hv⟩ := exists_pair_of_lookup_eq_some h1
    rw [← hv]
    exact hno p hp

/-- C5: encoding two sequences of lengths L1 < L2 yields a two-row tensor of
width L2 in which exactly the first row's last L2 - L1 entries are the pad
sentinel -1, provided the table maps no token to -1. -/
theorem padding_roundtrip (t1 t2 : List Str) (vocab : List (Str × Int))
    (hlt : t1.length < t2.length) (hno : ∀ p ∈ vocab, p.2 ≠ -1) :
    (list_str_to_idx [t1, t2] vocab (-1)).length = 2 ∧
    (∀ r ∈ list_str_to_idx [t1, t2] vocab (-1), r.length = t2.length) ∧
    (∀ j, t1.length ≤ j → j < t2.length →
      ((list_str_to_idx [t1, t2] vocab (-1)).getD 0 []).getD j 0 = -1) ∧
    (∀ j, j < t1.length →
      ((list_str_to_idx [t1, t2] vocab (-1)).getD 0 []).getD j 0 ≠ -1) ∧
    (∀ j, j < t2.length →
      ((list_str_to_idx [t1, t2] vocab (-1)).getD 1 []).getD j 0 ≠ -1) := by
  have hmax : ((([t1, t2].map fun t => t.map fun c => dictGet vocab c 0).map
      List.length).foldr max 0) = t2.length := by
    simp only [List.map_cons, List.map_nil, List.foldr_cons, List.foldr_nil, List.length_map]
    omega
  have hrow0 : (list_str_to_idx [t1, t2] vocab (-1)).getD 0 [] =
      t1.map (fun c => dictGet vocab c 0) ++
        List.replicate (t2.length - t1.length) (-1) := by
    rw [lsi_getD [t1, t2] vocab (-1) 0 (by simp), hmax]
    rfl
  have hrow1 : (list_str_to_idx [t1, t2] vocab (-1)).getD 1 [] =
      t2.map (fun c => dictGet vocab c 0) := by
    rw [lsi_getD [t1, t2] vocab (-1) 1 (by simp), hmax]
    simp
  refine ⟨by simp [lsi_length], ?_, ?_, ?_, ?_⟩
  · intro r hr
    simp only [list_str_to_idx, List.mem_map] at hr
    obtain ⟨row, hrow, rfl⟩ := hr
    obtain ⟨t, ht, rfl⟩ := hrow
    rw [List.length_append, List.length_replicate, hmax, List.length_map]
    have : t.length ≤ t2.length := by
      rcases List.mem_cons.mp ht with rfl | ht2
      · exact Nat.le_of_lt hlt
      · rcases List.mem_cons.mp ht2 with rfl | ht3
        · exact le_rfl
        · simp at ht3
    omega
  · intro j hj1 hj2
    rw [hrow0, List.getD_append_right _ _ _ _ (by simpa using hj1),
        List.getD_eq_getElem _ _ (by simp; omega)]
    simp
  · intro j hj
    rw [hrow0, List.getD_append _ _ _ _ (by simpa using hj),
        List.getD_eq_getElem _ _ (by simpa using hj)]
    simp only [List.getElem_map]
    exact dictGet_ne_neg_one vocab hno _
  · intro j hj
    rw [hrow1, List.getD_eq_getElem _ _ (by simpa using hj)]
    simp only [List.getElem_map]
    exact dictGet_ne_neg_one vocab hno _

/-- Witness for C5 at a concrete pair of token sequences and table. -/
theorem padding_roundtrip_witness :
    (list_str_to_idx [[['a']], [['b'], ['c']]]
      [((['a'] : Str), 1), ((['b'] : Str), 2)] (-1)).length = 2 :=
  (padding_roundtrip [['a']] [['b'], ['c']] [((['a'] : Str), 1), ((['b'] : Str), 2)]
    (by decide) (by decide)).1

/- Facts about the quote/semicolon normalization. -/

theorem replace_quotes_of_no_ascii (text : Str) (h : ∀ c ∈ text, c.utf8Size = 3) :
    replace_quotes text = text := by
  have hq : ∀ c ∈ text, c ≠ '"' := by
    intro c hc heq
    have h3 := h c hc
    rw [heq] at h3
    exact absurd h3 (by decide)
  have hcm : ∀ c ∈ text, c ≠ ',' := by
    intro c hc heq
    have h3 := h c hc
    rw [heq] at h3
    exact absurd h3 (by decide)
  have hs : ∀ c ∈ text, c ≠ ';' := by
    intro c hc heq
    have h3 := h c hc
    rw [heq] at h3
    exact absurd h3 (by decide)
  unfold replace_quotes
  rw [pyReplace_no_head text '"' [] ['"'] hq, pyReplace_no_head text '"' [] ['"'] hq,
      show tripleQuotedPat =
        ',' :: [' ', '"', squote, '"', ')', '.', 'r', 'e', 'p', 'l', 'a', 'c', 'e', '(']
        from rfl,
      pyReplace_no_head text ',' _ [squote] hcm,
      pyReplace_no_head text ';' [] [','] hs]

theorem replace_quotes_ascii (text : Str)
    (hno : isSubstrOf tripleQuotedPat text = false) :
    replace_quotes text = text.map fun c => if c = ';' then ',' else c := by
  have h3 : pyReplace text tripleQuotedPat [squote] = text := by
    rw [pyReplace, if_neg (by decide)]
    exact pyReplaceAux_no_occ tripleQuotedPat [squote] text
      (not_isPrefixOf_of_isSubstrOf_eq_false tripleQuotedPat text (by decide) hno)
  unfold replace_quotes
  rw [pyReplace_self, pyReplace_self, h3, pyReplace_single]

/- Facts about the per-character conversion loop. -/

theorem convertStep_ascii (pinyin : Char → List Str) (polyphone : Bool)
    (acc : List Str) (c : Char) (hc : c.utf8Size = 1) :
    convertStep pinyin polyphone acc c = acc ++ [[c]] := by
  simp [convertStep, hc]

theorem foldl_ascii (pinyin : Char → List Str) (polyphone : Bool) :
    ∀ (s : Str) (acc : List Str), (∀ c ∈ s, c.utf8Size = 1) →
      s.foldl (convertStep pinyin polyphone) acc = acc ++ s.map (fun c => [c]) := by
  intro s
  induction s with
  | nil => intro acc _; simp
  | cons c rest ih =>
    intro acc h
    rw [List.foldl_cons, convertStep_ascii pinyin polyphone acc c
        (h c (List.mem_cons_self c rest)),
      ih (acc ++ [[c]]) (fun d hd => h d (List.mem_cons_of_mem c hd))]
    simp

/-- C8 (amended): for pure-ASCII input in which the literal fifteen-character
pattern of the mis-tokenized quote replacement does not occur, the output
token sequence is the input character sequence with each semicolon replaced
by a comma, one singleton token per character: no transliteration is invoked
(the result does not depend on the transliteration function) and no space
token is inserted. -/
theorem ascii_identity_amended (pinyin : Char → List Str) (text : Str)
    (hascii : ∀ c ∈ text, c.utf8Size = 1)
    (hno : isSubstrOf tripleQuotedPat text = false) :
    processText pinyin true text =
      (text.map fun c => if c = ';' then ',' else c).map (fun c => [c]) := by
  unfold processText
  rw [replace_quotes_ascii text hno]
  apply foldl_ascii
  intro c hc
  obtain ⟨d, hd, rfl⟩ := List.mem_map.mp hc
  by_cases h : d = ';'
  · rw [if_pos h]; decide
  · rw [if_neg h]; exact hascii d hd

/-- Witness for the amended C8 at the concrete ASCII input "hi;". -/
theorem ascii_identity_amended_witness :
    processText pinyinModel true ['h', 'i', ';'] =
      ((['h', 'i', ';'] : Str).map fun c => if c = ';' then ',' else c).map
        (fun c => [c]) :=
  ascii_identity_amended pinyinModel ['h', 'i', ';'] (by decide) (by decide)

/-- C8 counterexample: the ASCII input ";" is normalized to "," before
tokenization, so the output token sequence is not the input character
sequence. -/
theorem ascii_identity_counterexample :
    processText pinyinModel true [';'] = [[',']] ∧
      processText pinyinModel true [';'] ≠ [[';']] := by decide

/- The conversion loop only ever appends: no character is dropped. -/

theorem pinyinAppend_exists (acc : List Str) (p : Str) :
    ∃ new, new ≠ [] ∧ pinyinAppend acc p = acc ++ new := by
  unfold pinyinAppend
  by_cases h : ¬ isSubstrOf p cjkPunct = true
  · rw [if_pos h]
    by_cases h2 : acc = [] ∨ ¬ is_japanese (acc.getLastD []) = true
    · rw [if_pos h2]
      exact ⟨[[' '], p], by simp, by simp⟩
    · rw [if_neg h2]
      exact ⟨[p], by simp, rfl⟩
  · rw [if_neg h]
    exact ⟨[p], by simp, rfl⟩

theorem foldl_pinyinAppend_exists :
    ∀ (ps : List Str) (acc : List Str),
      ∃ new, (ps ≠ [] → new ≠ []) ∧ ps.foldl pinyinAppend acc = acc ++ new := by
  intro ps
  induction ps with
  | nil => intro acc; exact ⟨[], fun h => absurd rfl h, by simp⟩
  | cons p ps ih =>
    intro acc
    obtain ⟨n1, hn1, hstep⟩ := pinyinAppend_exists acc p
    obtain ⟨n2, _, hrest⟩ := ih (acc ++ n1)
    refine ⟨n1 ++ n2, ?_, ?_⟩
    · intro _ hcon
      exact hn1 (List.append_eq_nil.mp hcon).1
    · rw [List.foldl_cons, hstep, hrest, List.append_assoc]

theorem convertStep_exists (pinyin : Char → List Str) (polyphone : Bool)
    (hp : ∀ c, pinyin c ≠ []) (acc : List Str) (c : Char) :
    ∃ new, new ≠ [] ∧ convertStep pinyin polyphone acc c = acc ++ new := by
  unfold convertStep
  by_cases h1 : c.utf8Size = 1
  · rw [if_pos h1]
    by_cases hsp : acc ≠ [] ∧ c.utf8Size > 1 ∧
        ¬ isSubstrOf (acc.getLastD []) [' ', ':', squote, '"'] = true
    · rw [if_pos hsp]
      exact ⟨[[' '], [c]], by simp, by simp⟩
    · rw [if_neg hsp]
      exact ⟨[[c]], by simp, rfl⟩
  · rw [if_neg h1]
    by_cases h2 : polyphone = true ∧ c.utf8Size = 3
    · rw [if_pos h2]
      obtain ⟨new, hne, heq⟩ := foldl_pinyinAppend_exists (pinyin c) acc
      exact ⟨new, hne (hp c), heq⟩
    · rw [if_neg h2]
      by_cases h3 : c.toNat < 256
      · rw [if_pos h3]
        exact ⟨[[c]], by simp, rfl⟩
      · rw [if_neg h3]
        by_cases h4 : is_japanese [c] = true
        · rw [if_pos h4]
          exact ⟨[[c]], by simp, rfl⟩
        · rw [if_neg h4]
          by_cases h5 : ¬ isSubstrOf [c] cjkPunct = true
          · rw [if_pos h5]
            exact ⟨pinyin c, hp c, rfl⟩
          · rw [if_neg h5]
            exact ⟨[[c]], by simp, rfl⟩

theorem foldl_convertStep_length (pinyin : Char → List Str) (polyphone : Bool)
    (hp : ∀ c, pinyin c ≠ []) :
    ∀ (s : Str) (acc : List Str),
      acc.length + s.length ≤ (s.foldl (convertStep pinyin polyphone) acc).length := by
  intro s
  induction s with
  | nil => intro acc; simp
  | cons c rest ih =>
    intro acc
    obtain ⟨new, hne, hstep⟩ := convertStep_exists pinyin polyphone hp acc c
    rw [List.foldl_cons, hstep]
    have h1 : 1 ≤ new.length := List.length_pos.mpr hne
    have h2 := ih (acc ++ new)
    simp only [List.length_append, List.length_cons] at h2 ⊢
    omega

/-- C9: the segmenter drops no character.  Every step of the conversion loop
strictly extends the token list (given that the transliteration capability
returns at least one syllable per character), so the output has at least one
token per normalized input character; and a non-ASCII character outside the
Japanese ranges and the punctuation set is sent individually through the
transliteration path. -/
theorem no_char_dropped (pinyin : Char → List Str) (polyphone : Bool) (text : Str)
    (hp : ∀ c, pinyin c ≠ []) :
    (∀ (acc : List Str) (c : Char), ∃ new, new ≠ [] ∧
      convertStep pinyin polyphone acc c = acc ++ new) ∧
    (replace_quotes text).length ≤ (processText pinyin polyphone text).length ∧
    (∀ (acc : List Str) (c : Char), c.utf8Size ≠ 1 →
      ¬(polyphone = true ∧ c.utf8Size = 3) → 256 ≤ c.toNat →
      is_japanese [c] = false → isSubstrOf [c] cjkPunct = false →
      convertStep pinyin polyphone acc c = acc ++ pinyin c) := by
  refine ⟨convertStep_exists pinyin polyphone hp, ?_, ?_⟩
  · have := foldl_convertStep_length pinyin polyphone hp (replace_quotes text) []
    simpa [processText] using this
  · intro acc c h1 h2 h3 h4 h5
    unfold convertStep
    rw [if_neg h1, if_neg h2, if_neg (by omega),
        if_neg (by rw [h4]; exact Bool.false_ne_true),
        if_pos (by rw [h5]; exact Bool.false_ne_true)]

theorem pinyinModel_ne_nil : ∀ c, pinyinModel c ≠ [] := by
  intro c
  unfold pinyinModel
  split
  · simp
  · split <;> simp

/-- Witness for C9 with the modelled transliteration adapter on a mixed
input: the output of processing "é你" has at least as many tokens as the
normalized input has characters. -/
theorem no_char_dropped_witness :
    (replace_quotes ['é', '你']).length ≤
      (processText pinyinModel true ['é', '你']).length :=
  (no_char_dropped pinyinModel true ['é', '你'] pinyinModel_ne_nil).2.1

/- Classification of the tokens produced for all-Chinese input. -/

theorem isTonal_shape {p : Str} (h : isTonal p = true) :
    p ≠ [] ∧ ∀ ch ∈ p, ch.toNat < 128 := by
  constructor
  · intro hcon
    rw [hcon] at h
    exact absurd h (by decide)
  · intro ch hch
    unfold isTonal at h
    simp only [Bool.and_eq_true, List.all_eq_true, decide_eq_true_eq] at h
    exact h.1.2 ch hch

theorem isTonal_not_punctSubstr {p : Str} (h : isTonal p = true) :
    isSubstrOf p cjkPunct = false := by
  obtain ⟨hne, hall⟩ := isTonal_shape h
  exact isSubstrOf_cjkPunct_eq_false_of_ascii p hne
    (List.all_eq_true.mpr fun ch hch => by simpa using hall ch hch)

theorem isPunctTok_shape {p : Str} (h : isPunctTok p = true) :
    ∃ d, d ∈ cjkPunct ∧ p = [d] := by
  cases p with
  | nil => simp [isPunctTok] at h
  | cons d rest =>
    cases rest with
    | nil =>
      refine ⟨d, ?_, rfl⟩
      have hc : cjkPunct.contains d = true := h
      simpa using hc
    | cons e rest2 => simp [isPunctTok] at h

theorem isPunctTok_substrTrue {p : Str} (h : isPunctTok p = true) :
    isSubstrOf p cjkPunct = true := by
  obtain ⟨d, hd, rfl⟩ := isPunctTok_shape h
  exact (isSubstrOf_singleton_iff d cjkPunct).mpr hd

theorem isPunctTok_ne_space {p : Str} (h : isPunctTok p = true) : p ≠ [' '] := by
  obtain ⟨d, hd, rfl⟩ := isPunctTok_shape h
  intro hcon
  have hde : d = ' ' := by simpa using hcon
  subst hde
  exact absurd hd (by decide)

theorem isTonal_ne_space {p : Str} (h : isTonal p = true) : p ≠ [' '] := by
  intro hcon
  rw [hcon] at h
  exact absurd h (by decide)

theorem isTonal_not_punct {p : Str} (h : isTonal p = true) : isPunctTok p = false := by
  cases hb : isPunctTok p with
  | false => rfl
  | true =>
    obtain ⟨d, hd, rfl⟩ := isPunctTok_shape hb
    obtain ⟨_, hall⟩ := isTonal_shape h
    have hlt := hall d (List.mem_cons_self d [])
    have hge : ∀ c ∈ cjkPunct, ¬ c.toNat < 128 := by decide
    exact absurd hlt (hge d hd)

theorem pinyinAppend_inv (acc : List Str) (p : Str)
    (hp : isTonal p = true ∨ isPunctTok p = true)
    (h1 : ∀ t ∈ acc, t = [' '] ∨ isTonal t = true ∨ isPunctTok t = true)
    (h2 : List.Chain' (fun a b => ¬(a = [' '] ∧ isPunctTok b = true)) acc)
    (h3 : ∀ t, acc.getLast? = some t → t ≠ [' ']) :
    (∀ t ∈ pinyinAppend acc p, t = [' '] ∨ isTonal t = true ∨ isPunctTok t = true) ∧
    List.Chain' (fun a b => ¬(a = [' '] ∧ isPunctTok b = true)) (pinyinAppend acc p) ∧
    (∀ t, (pinyinAppend acc p).getLast? = some t → t ≠ [' ']) := by
  rcases hp with hts | hpt
  · have hsub : isSubstrOf p cjkPunct = false := isTonal_not_punctSubstr hts
    have hnp : isPunctTok p = false := isTonal_not_punct hts
    unfold pinyinAppend
    rw [if_pos (by rw [hsub]; exact Bool.false_ne_true)]
    by_cases hsp : acc = [] ∨ ¬ is_japanese (acc.getLastD []) = true
    · rw [if_pos hsp, List.append_assoc]
      simp only [List.cons_append, List.nil_append]
      refine ⟨?_, ?_, ?_⟩
      · intro t ht
        rcases List.mem_append.mp ht with h | h
        · exact h1 t h
        · rcases List.mem_cons.mp h with rfl | h'
          · exact Or.inl rfl
          · rcases List.mem_cons.mp h' with rfl | h''
            · exact Or.inr (Or.inl hts)
            · simp at h''
      · refine List.chain'_append.mpr ⟨h2, ?_, ?_⟩
        · refine List.chain'_cons.mpr ⟨?_, List.chain'_singleton p⟩
          rintro ⟨-, hcon⟩
          rw [hnp] at hcon
          exact Bool.false_ne_true hcon
        · intro x _ y hy
          have hysp : [' '] = y := by simpa using hy
          subst hysp
          rintro ⟨-, hcon⟩
          exact absurd hcon (by decide)
      · intro t ht
        have hte : p = t := by simpa [List.getLast?_append] using ht
        subst hte
        exact isTonal_ne_space hts
    · rw [if_neg hsp]
      refine ⟨?_, ?_, ?_⟩
      · intro t ht
        rcases List.mem_append.mp ht with h | h
        · exact h1 t h
        · rcases List.mem_cons.mp h with rfl | h'
          · exact Or.inr (Or.inl hts)
          · simp at h'
      · refine List.chain'_append.mpr ⟨h2, List.chain'_singleton p, ?_⟩
        intro x _ y hy
        have hyp : p = y := by simpa using hy
        subst hyp
        rintro ⟨-, hcon⟩
        rw [hnp] at hcon
        exact Bool.false_ne_true hcon
      · intro t ht
        have hte : p = t := by simpa [List.getLast?_append] using ht
        subst hte
        exact isTonal_ne_space hts
  · have hsub : isSubstrOf p cjkPunct = true := isPunctTok_substrTrue hpt
    unfold pinyinAppend
    rw [if_neg (by rw [hsub]; simp)]
    refine ⟨?_, ?_, ?_⟩
    · intro t ht
      rcases List.mem_append.mp ht with h | h
      · exact h1 t h
      · rcases List.mem_cons.mp h with rfl | h'
        · exact Or.inr (Or.inr hpt)
        · simp at h'
    · refine List.chain'_append.mpr ⟨h2, List.chain'_singleton p, ?_⟩
      intro x hx y hy
      have hyp : p = y := by simpa using hy
      subst hyp
      rintro ⟨hxsp, -⟩
      exact h3 x (Option.mem_def.mp hx) hxsp
    · intro t ht
      have hte : p = t := by simpa [List.getLast?_append] using ht
      subst hte
      exact isPunctTok_ne_space hpt

theorem foldl_pinyinAppend_inv :
    ∀ (ps : List Str) (acc : List Str),
      (∀ p ∈ ps, isTonal p = true ∨ isPunctTok p = true) →
      (∀ t ∈ acc, t = [' '] ∨ isTonal t = true ∨ isPunctTok t = true) →
      List.Chain' (fun a b => ¬(a = [' '] ∧ isPunctTok b = true)) acc →
      (∀ t, acc.getLast? = some t → t ≠ [' ']) →
      ((∀ t ∈ ps.foldl pinyinAppend acc,
          t = [' '] ∨ isTonal t = true ∨ isPunctTok t = true) ∧
        List.Chain' (fun a b => ¬(a = [' '] ∧ isPunctTok b = true))
          (ps.foldl pinyinAppend acc) ∧
        (∀ t, (ps.foldl pinyinAppend acc).getLast? = some t → t ≠ [' '])) := by
  intro ps
  induction ps with
  | nil => intro acc _ h1 h2 h3; exact ⟨h1, h2, h3⟩
  | cons p ps ih =>
    intro acc hps h1 h2 h3
    rw [List.foldl_cons]
    obtain ⟨g1, g2, g3⟩ :=
      pinyinAppend_inv acc p (hps p (List.mem_cons_self p ps)) h1 h2 h3
    exact ih (pinyinAppend acc p) (fun q hq => hps q (List.mem_cons_of_mem p hq)) g1 g2 g3

theorem foldl_convertStep_inv (pinyin : Char → List Str) :
    ∀ (s : Str) (acc : List Str),
      (∀ c ∈ s, c.utf8Size = 3) →
      (∀ c ∈ s, ∀ p ∈ pinyin c, isTonal p = true ∨ isPunctTok p = true) →
      (∀ t ∈ acc, t = [' '] ∨ isTonal t = true ∨ isPunctTok t = true) →
      List.Chain' (fun a b => ¬(a = [' '] ∧ isPunctTok b = true)) acc →
      (∀ t, acc.getLast? = some t → t ≠ [' ']) →
      ((∀ t ∈ s.foldl (convertStep pinyin true) acc,
          t = [' '] ∨ isTonal t = true ∨ isPunctTok t = true) ∧
        List.Chain' (fun a b => ¬(a = [' '] ∧ isPunctTok b = true))
          (s.foldl (convertStep pinyin true) acc) ∧
        (∀ t, (s.foldl (convertStep pinyin true) acc).getLast? = some t → t ≠ [' '])) := by
  intro s
  induction s with
  | nil => intro acc _ _ h1 h2 h3; exact ⟨h1, h2, h3⟩
  | cons c rest ih =>
    intro acc hsize hcon h1 h2 h3
    rw [List.foldl_cons]
    have hc3 : c.utf8Size = 3 := hsize c (List.mem_cons_self c rest)
    have hstep : convertStep pinyin true acc c = (pinyin c).foldl pinyinAppend acc := by
      unfold convertStep
      rw [if_neg (by omega), if_pos ⟨rfl, hc3⟩]
    rw [hstep]
    obtain ⟨g1, g2, g3⟩ := foldl_pinyinAppend_inv (pinyin c) acc
      (hcon c (List.mem_cons_self c rest)) h1 h2 h3
    exact ih ((pinyin c).foldl pinyinAppend acc)
      (fun d hd => hsize d (List.mem_cons_of_mem c hd))
      (fun d hd => hcon d (List.mem_cons_of_mem c hd)) g1 g2 g3

/-- C7 (amended): for all-Chinese input (each character 3 bytes in UTF-8 and
a character the transliteration adapter maps to tone-digit syllables or
literal punctuation), every output token is the single-space separator, a
tone-digit syllable, or a literal member of the punctuation set; a
punctuation token is never immediately preceded by a space token, and a
punctuation token never carries a digit suffix. -/
theorem segmenter_chinese_amended (pinyin : Char → List Str) (text : Str)
    (hsize : ∀ c ∈ text, c.utf8Size = 3)
    (hcontract : ∀ c ∈ text, ∀ p ∈ pinyin c, isTonal p = true ∨ isPunctTok p = true) :
    (∀ tok ∈ processText pinyin true text,
      tok = [' '] ∨ isTonal tok = true ∨ isPunctTok tok = true) ∧
    List.Chain' (fun a b => ¬(a = [' '] ∧ isPunctTok b = true))
      (processText pinyin true text) ∧
    (∀ tok ∈ processText pinyin true text, isPunctTok tok = true →
      (tok.getLastD ' ').isDigit = false) := by
  have hinv := foldl_convertStep_inv pinyin text [] hsize hcontract
    (by simp) (by simp) (by simp)
  unfold processText
  rw [replace_quotes_of_no_ascii text hsize]
  refine ⟨hinv.1, hinv.2.1, ?_⟩
  intro tok _ hpt
  obtain ⟨d, hd, rfl⟩ := isPunctTok_shape hpt
  have hnd : ∀ e ∈ cjkPunct, e.isDigit = false := by decide
  simpa using hnd d hd

/-- Witness for the amended C7: the spacing property, evaluated on the
concrete all-Chinese input 你。 with the modelled adapter. -/
theorem segmenter_chinese_amended_witness :
    List.Chain' (fun a b => ¬(a = [' '] ∧ isPunctTok b = true))
      (processText pinyinModel true ['你', '。']) :=
  (segmenter_chinese_amended pinyinModel ['你', '。'] (by decide) (by decide)).2.1

/-- C7 counterexample: on the all-Chinese input 你 the output token list is
[" ", "ni3"]; its first token is the inserted space separator, which is
neither a tone-digit syllable nor a punctuation member, so the claimed
classification of every output token fails as stated. -/
theorem segmenter_chinese_counterexample :
    [' '] ∈ processText pinyinModel true ['你'] ∧
      isTonal [' '] = false ∧ isPunctTok [' '] = false := by decide

end RunpodTTS
